import Mathlib

/-!
Verification of the audio-engine core: a shallow embedding, in Lean 4, of
the buffer-borrowing aliasing guard (`src/engine.rs`), the circular sample
store (`src/audio/ring.rs`), the cubic-interpolation resampler
(`src/audio/resample.rs`), the variable-rate delay line
(`src/audio/delay_line.rs`) and the processing-graph engine's per-block
loop (`src/engine.rs`).

Modelling conventions:
* `usize`/`u32` values become `Nat`; `isize` arithmetic becomes `Int`.
* `f32`/`f64` sample and control arithmetic is embedded over `ℚ`
  (exact field arithmetic; every concrete input used below is dyadic, so
  the modelled results coincide with the IEEE results the code computes).
* Rust panics (failed `assert!`, out-of-bounds slice indexing, claimed
  aliasing) are modelled by returning `none`.
* `Vec`/slice contents become `List`s; `copy_from_slice` on a subrange
  becomes `listSetRange` below.
-/

namespace AudioEngineModel

/-- `listSetRange l i xs` overwrites `l[i .. i+xs.length)` with `xs`,
modelling `buf[i..j].copy_from_slice(xs)` (meaningful when
`i + xs.length ≤ l.length`). -/
def listSetRange (l : List α) (i : ℕ) (xs : List α) : List α :=
  l.take i ++ xs ++ l.drop (i + xs.length)

/-- `Vec::resize(n, pad)`: truncate or pad to length `n`. -/
def listResize (l : List α) (n : ℕ) (pad : α) : List α :=
  if n ≤ l.length then l.take n else l ++ List.replicate (n - l.length) pad

/-- Association-list lookup (models `HashMap::get` / `SecondaryMap::get`). -/
def assocGet [DecidableEq κ] (m : List (κ × β)) (k : κ) : Option β :=
  match m with
  | [] => none
  | (k₀, v) :: rest => if k = k₀ then some v else assocGet rest k

/-- Association-list insert-or-update (models `HashMap::insert`). -/
def assocSet [DecidableEq κ] (m : List (κ × β)) (k : κ) (v : β) : List (κ × β) :=
  match m with
  | [] => [(k, v)]
  | (k₀, v₀) :: rest =>
    if k = k₀ then (k₀, v) :: rest else (k₀, v₀) :: assocSet rest k v

/-! ## The aliasing guard (`src/engine.rs`, `borrow_buffers` / `assert_index_valid`)

`assert_index_valid` panics (here: `none`) when the index is out of range
for the master buffer, or when a mutable borrow hits an already-claimed
slot; otherwise it records the slot in the borrow mask.  The mask is a
`u64` in the source; since every accepted index is `< max_buffers ≤ 64`,
the shift `1 << idx` never overflows and a plain `Nat` bit-mask is exact. -/

/-- `assert_index_valid(idx, max_buffers, &mut borrow_mask, mutable)`. -/
def assert_index_valid (idx max_buffers : ℕ) (borrow_mask : ℕ) (mutable : Bool) :
    Option ℕ :=
  if idx ≥ max_buffers then none
  else if mutable && borrow_mask.testBit idx then none
  else some (borrow_mask ||| (1 <<< idx))

/-- `borrow_buffers(master, len, audio_in_indices, audio_out_indices, bump)`.
Returns the borrowed subranges of the master buffer as pairs
`(start, length)`: immutable input views first, then the mutable output
views; `none` models a panic.  The input iterator is consumed before the
output iterator (two separate `alloc_slice_fill_iter` calls). -/
def borrow_buffers (masterLen len : ℕ) (audio_in_indices audio_out_indices : List ℕ) :
    Option (List (ℕ × ℕ) × List (ℕ × ℕ)) :=
  let max_buffers := min (masterLen / len) 64
  match audio_in_indices.foldlM
      (fun mask idx => assert_index_valid idx max_buffers mask false) 0 with
  | none => none
  | some mask =>
    match audio_out_indices.foldlM
        (fun mask idx => assert_index_valid idx max_buffers mask true) mask with
    | none => none
    | some _ =>
      some (audio_in_indices.map (fun idx => (idx * len, len)),
            audio_out_indices.map (fun idx => (idx * len, len)))

/-- Two `(start, length)` ranges do not overlap. -/
def RangesDisjoint (a b : ℕ × ℕ) : Prop :=
  a.1 + a.2 ≤ b.1 ∨ b.1 + b.2 ≤ a.1

instance : DecidableRel RangesDisjoint :=
  fun _ _ => inferInstanceAs (Decidable (_ ∨ _))

/-! ## The circular sample store (`src/audio/ring.rs`)

Samples are `f32` in the source; `read`/`write`/`seek` only move them, so
they are embedded as `ℚ` values unchanged. -/

structure RingBuffer where
  buffer : List ℚ
  read_idx : ℕ
  write_idx : ℕ
  deriving DecidableEq, Repr

namespace RingBuffer

/-- `RingBuffer::new(size)`: a zero-filled buffer with both cursors at 0. -/
def new (size : ℕ) : RingBuffer :=
  { buffer := List.replicate size 0, read_idx := 0, write_idx := 0 }

/-- `RingBuffer::size`. -/
def size (rb : RingBuffer) : ℕ := rb.buffer.length

/-- `RingBuffer::delay`: `(write_idx - read_idx).rem_euclid(len)` over `isize`.
(The source panics when the capacity is zero; all claims below only use
non-empty buffers, where `Int.emod` agrees with `rem_euclid`.) -/
def delay (rb : RingBuffer) : ℕ :=
  (((rb.write_idx : ℤ) - rb.read_idx).emod rb.buffer.length).toNat

/-- `RingBuffer::seek(delay)`: repositions the read cursor `delay` samples
behind the write cursor. -/
def seek (rb : RingBuffer) (delay : ℕ) : RingBuffer :=
  { rb with
    read_idx := (((rb.write_idx : ℤ) - delay).emod rb.buffer.length).toNat }

/-- `RingBuffer::read(samples)` for an output slice of length `n`:
returns the samples copied out together with the updated buffer.
The two `copy_from_slice` calls of the wrap branch become
`drop`/`take` extractions of the wrapped range. -/
def read (rb : RingBuffer) (n : ℕ) : List ℚ × RingBuffer :=
  let i := rb.read_idx
  let j := rb.read_idx + n
  let len := rb.buffer.length
  if j > len then
    (rb.buffer.drop i ++ rb.buffer.take (j - len), { rb with read_idx := j - len })
  else
    ((rb.buffer.drop i).take n, { rb with read_idx := j })

/-- `RingBuffer::write(samples)`. -/
def write (rb : RingBuffer) (samples : List ℚ) : RingBuffer :=
  let i := rb.write_idx
  let j := rb.write_idx + samples.length
  let len := rb.buffer.length
  if j > len then
    { rb with
      buffer := listSetRange (listSetRange rb.buffer i (samples.take (len - i)))
                  0 (samples.drop (len - i)),
      write_idx := j - len }
  else
    { rb with buffer := listSetRange rb.buffer i samples, write_idx := j }

end RingBuffer

/-- One call on the ring buffer: `write(xs)` or `read` of a given length. -/
inductive RingOp where
  | write (xs : List ℚ)
  | read (n : ℕ)

/-- Runs a sequence of calls, concatenating everything the reads return. -/
def runRingOps (rb : RingBuffer) : List RingOp → RingBuffer × List ℚ
  | [] => (rb, [])
  | RingOp.write xs :: rest => runRingOps (rb.write xs) rest
  | RingOp.read n :: rest =>
    let res := rb.read n
    let rest' := runRingOps res.2 rest
    (rest'.1, res.1 ++ rest'.2)

/-- Concatenation of all samples written by a call sequence, in order. -/
def writtenSamples : List RingOp → List ℚ
  | [] => []
  | RingOp.write xs :: rest => xs ++ writtenSamples rest
  | RingOp.read _ :: rest => writtenSamples rest

/-- Total length requested by the reads of a call sequence. -/
def readTotal : List RingOp → ℕ
  | [] => 0
  | RingOp.write _ :: rest => readTotal rest
  | RingOp.read n :: rest => n + readTotal rest

/-- The side conditions of the round-trip claim, checked call by call for a
buffer of capacity `cap`, given `w` samples written and `r` samples read so
far: each call's length is at most `cap`, the total read never exceeds the
total written, and the number of written-but-unread samples never exceeds
`cap`. -/
def validRingOps (cap : ℕ) : ℕ → ℕ → List RingOp → Bool
  | _, _, [] => true
  | w, r, RingOp.write xs :: rest =>
    decide (xs.length ≤ cap) && decide (w + xs.length - r ≤ cap) &&
      validRingOps cap (w + xs.length) r rest
  | w, r, RingOp.read n :: rest =>
    decide (n ≤ cap) && decide (r + n ≤ w) && validRingOps cap w (r + n) rest

/-- Coupling invariant between a ring buffer of capacity `N` and the
abstract sample stream: `ws` is the concatenation of everything written so
far and `r` the number of samples read so far.  The cursors may
transiently sit at `N` (a contiguous copy that ends exactly at the end of
the backing array leaves them there), hence `≤ N` together with the
`mod N` characterisation. -/
structure RingInv (N : ℕ) (rb : RingBuffer) (ws : List ℚ) (r : ℕ) : Prop where
  hbuf : rb.buffer.length = N
  hr : r ≤ ws.length
  hcap : ws.length - r ≤ N
  hri_le : rb.read_idx ≤ N
  hri : rb.read_idx % N = r % N
  hwi_le : rb.write_idx ≤ N
  hwi : rb.write_idx % N = ws.length % N
  hdata : ∀ t, t < ws.length - r → rb.buffer[(r + t) % N]? = ws[r + t]?

/-! ## The fractional resampler (`src/audio/resample.rs`)

`Resampler<I>` is instantiated in this repository with `CubicInterpolator`
(`window == 1`); the embedding specialises to that instance.  The state is
the fractional position `x1`.  `resample` returns `none` where the source
panics: the three explicit `assert!`s, the `usize` subtractions that would
underflow, and every slice indexing (`samples_in[idx..]`, the four sample
accesses inside `interpolate`, and the fast-path copy). -/

namespace CubicInterpolator

/-- `CubicInterpolator::window`. -/
def window : ℕ := 1

/-- `CubicInterpolator::interpolate(t, samples)`: Catmull-Rom-style cubic
through four consecutive samples, Horner-evaluated at the fractional
offset `t`; `none` when fewer than four samples are available (the Rust
indexing `samples[3]` would panic). -/
def interpolate (t : ℚ) (samples : List ℚ) : Option ℚ :=
  if 4 ≤ samples.length then
    let s0 := samples.getD 0 0
    let s1 := samples.getD 1 0
    let s2 := samples.getD 2 0
    let s3 := samples.getD 3 0
    let a0 := s1
    let a1 := -(1/3) * s0 - (1/2) * s1 + s2 - (1/6) * s3
    let a2 := (1/2) * (s0 + s2) - s1
    let a3 := (1/2) * (s1 - s2) + (1/6) * (s3 - s0)
    let x2 := t * t
    let x3 := x2 * t
    some (a0 + a1 * t + a2 * x2 + a3 * x3)
  else none

end CubicInterpolator

namespace Resampler

/-- `Resampler::next_input_size(output_samples, ratio)`:
`(x1 + ratio * output_samples).floor() as usize + 2 + window`. -/
def next_input_size (x1 : ℚ) (output_samples : ℕ) (ratio : ℚ) : ℕ :=
  (⌊x1 + ratio * output_samples⌋).toNat + 2 + CubicInterpolator.window

/-- `Resampler::resample(samples_in, samples_out, ratio)` for an output of
length `out_len`, starting from fractional position `x1`.  On success it
returns `(samples_out, offset, new_x1)`; `none` models a panic. -/
def resample (x1 : ℚ) (samples_in : List ℚ) (out_len : ℕ) (ratio : ℚ) :
    Option (List ℚ × ℕ × ℚ) :=
  let w := CubicInterpolator.window
  -- Fast path: `self.x1.fract() == 0.0 && ratio == 1.0`
  if x1 - ⌊x1⌋ = 0 ∧ ratio = 1 then
    let x1n := (⌊x1⌋).toNat
    if x1n + out_len ≤ samples_in.length then
      -- `offset = samples_out.len() + x1 - I::window()` in `usize`
      if w ≤ out_len + x1n then
        some ((samples_in.drop x1n).take out_len, out_len + x1n - w, (w : ℚ))
      else none
    else none
  else
    let x2 := x1 + ratio * out_len
    -- `x_max = (samples_in.len() - I::window() - 1) as f32` underflows in
    -- `usize` when the input is shorter than `window + 1`
    if samples_in.length < w + 1 then none
    else
      let x_min : ℚ := w
      let x_max : ℚ := (samples_in.length - w - 1 : ℕ)
      if samples_in.length < 2 + w + w then none
      else if ¬ (x_min ≤ x1 ∧ x1 ≤ x_max) then none
      else if ¬ (x_min ≤ x2 ∧ x2 ≤ x_max) then none
      else
        match (List.range out_len).mapM (fun i : ℕ =>
            let x := x1 + ratio * (i : ℚ)
            -- `x.floor() as usize - I::window()` underflows below `window`
            if (⌊x⌋).toNat < w then none
            else
              let idx := (⌊x⌋).toNat - w
              if samples_in.length < idx then none
              else CubicInterpolator.interpolate (x - ⌊x⌋) (samples_in.drop idx)) with
        | none => none
        | some out =>
          -- `offset = x2.floor() - I::window() as f32`, returned `as usize`
          let offset : ℤ := ⌊x2⌋ - w
          some (out, offset.toNat, x2 - offset)

end Resampler

/-! ## The variable-rate delay line (`src/audio/delay_line.rs`)

The delay line drives a `rubato::FastFixedOut` resampler, an external
crate.  It is embedded as an abstract state machine `RubatoLike σ` exposing
exactly the three operations the delay line calls:
`set_resample_ratio`, `input_frames_next` and `process_into_buffer`
(the last returning the `OUTPUT_SIZE` output frames).  All delay-line code
itself is translated from the source. -/

/-- `OUTPUT_SIZE` (`src/audio/delay_line.rs`). -/
def OUTPUT_SIZE : ℕ := 32

/-- Interface of the external `rubato::FastFixedOut<f32>` resampler, over an
abstract internal state `σ`. -/
structure RubatoLike (σ : Type) where
  set_resample_ratio : σ → ℚ → σ
  input_frames_next : σ → ℕ
  process_into_buffer : σ → List ℚ → σ × List ℚ

/-- `FixedOutputAdapter<N>` with `N = OUTPUT_SIZE`. -/
structure FixedOutputAdapter where
  buffer : List ℚ
  idx : ℕ
  deriving DecidableEq, Repr

namespace FixedOutputAdapter

/-- `Default::default()`: a zero buffer with `idx = N` (empty). -/
def default : FixedOutputAdapter :=
  { buffer := List.replicate OUTPUT_SIZE 0, idx := OUTPUT_SIZE }

/-- `FixedOutputAdapter::new()`. -/
def new : FixedOutputAdapter := default

/-- `FixedOutputAdapter::read(output)` for an output slice of length
`outLen`: returns the samples written and the updated adapter. -/
def read (ad : FixedOutputAdapter) (outLen : ℕ) : List ℚ × FixedOutputAdapter :=
  if ad.idx ≥ OUTPUT_SIZE then ([], ad)
  else
    let next_idx := min (ad.idx + outLen) OUTPUT_SIZE
    ((ad.buffer.drop ad.idx).take (next_idx - ad.idx), { ad with idx := next_idx })

/-- `FixedOutputAdapter::write_silence()`. -/
def write_silence (ad : FixedOutputAdapter) : FixedOutputAdapter :=
  { ad with buffer := List.replicate OUTPUT_SIZE 0, idx := 0 }

end FixedOutputAdapter

/-- `DelayLine` state (`src/audio/delay_line.rs`), over the abstract rubato
state `σ`. -/
structure DelayLine (σ : Type) where
  ring : RingBuffer
  max_delay : ℚ
  sample_rate : ℚ
  warp : ℚ
  target_delay : ℕ
  samplerState : σ
  output_adapter : FixedOutputAdapter

namespace DelayLine

/-- `DelayLine::new(max_delay)`; `s0` is the freshly constructed rubato
state (`FastFixedOut::new(1.0, 10.0, Cubic, OUTPUT_SIZE, 1)`). -/
def new (max_delay : ℚ) (s0 : σ) : DelayLine σ :=
  { ring := RingBuffer.new 0
    max_delay := max_delay
    sample_rate := 0
    warp := 0
    target_delay := 0
    samplerState := s0
    output_adapter := FixedOutputAdapter.new }

/-- `DelayLine::set_sample_rate(sample_rate)`: stores the rate and
reallocates the ring buffer to `(max_delay * sample_rate) as usize`
samples (a fresh `RingBuffer::new`, both cursors at 0). -/
def set_sample_rate (dl : DelayLine σ) (sample_rate : ℕ) : DelayLine σ :=
  { dl with
    sample_rate := (sample_rate : ℚ)
    ring := RingBuffer.new ((⌊dl.max_delay * (sample_rate : ℚ)⌋).toNat) }

/-- `DelayLine::set_target_delay(target_delay)` (seconds → samples,
truncated `as usize`). -/
def set_target_delay (dl : DelayLine σ) (target_delay : ℚ) : DelayLine σ :=
  { dl with target_delay := (⌊target_delay * dl.sample_rate⌋).toNat }

/-- `DelayLine::seek(delay)`. -/
def seek (dl : DelayLine σ) (delay : ℚ) : DelayLine σ :=
  let dl := dl.set_target_delay delay
  { dl with ring := dl.ring.seek dl.target_delay }

/-- `DelayLine::write(samples)`. -/
def write (dl : DelayLine σ) (samples : List ℚ) : DelayLine σ :=
  { dl with ring := dl.ring.write samples }

/-- `DelayLine::update_warp(samples)`: the critically damped control law
`warp += (omega^2 * error - 2 * omega * warp) * (samples / sample_rate)`
with `omega = 8`, where `error = target_delay - ring.delay()`. -/
def update_warp (dl : DelayLine σ) (samples : ℕ) : DelayLine σ :=
  let omega : ℚ := 8
  let delay := dl.ring.delay
  let error : ℚ := (dl.target_delay : ℚ) - (delay : ℚ)
  let warp_acc := omega ^ 2 * error - 2 * omega * dl.warp
  { dl with warp := dl.warp + warp_acc * ((samples : ℚ) / dl.sample_rate) }

/-- The resample ratio computed by every read batch
(`src/audio/delay_line.rs` line 74 / `src/audio/delay.rs` line 67):
`((warp / sample_rate) as f64 + 1.0).clamp(0.1, 10.0)`. -/
def resampleRatio (warp sample_rate : ℚ) : ℚ :=
  let x := warp / sample_rate + 1
  if x < 1/10 then 1/10 else if x > 10 then 10 else x

/-- `DelayLine::read_inner(samples)`: one fixed-size batch.  `buf` is the
`OUTPUT_SIZE`-sample scratch handed in by the output adapter; the returned
list is that buffer after the call (unchanged on the silence path, since
`write_silence` fills `self.output_adapter` — not `buf`). -/
def read_inner (S : RubatoLike σ) (dl : DelayLine σ) (buf : List ℚ) :
    DelayLine σ × List ℚ :=
  let dl := dl.update_warp OUTPUT_SIZE
  let ratio := resampleRatio dl.warp dl.sample_rate
  let st := S.set_resample_ratio dl.samplerState ratio
  let dl := { dl with samplerState := st }
  let input_size := S.input_frames_next st
  if input_size > dl.ring.delay then
    ({ dl with output_adapter := dl.output_adapter.write_silence }, buf)
  else
    let (read_buffer, ring) := dl.ring.read input_size
    let (st, out) := S.process_into_buffer dl.samplerState read_buffer
    ({ dl with ring := ring, samplerState := st }, out)

/-- The loop inside `FixedOutputAdapter::fill`, with fuel (each pass after
the first drains at least one sample, so `n + 1` passes always suffice;
see `fill`). -/
def fillGo (fac : DelayLine σ → List ℚ → DelayLine σ × List ℚ) :
    ℕ → DelayLine σ → FixedOutputAdapter → ℕ → DelayLine σ × FixedOutputAdapter × List ℚ
  | 0, dl, ad, _ => (dl, ad, [])
  | fuel + 1, dl, ad, n =>
    let (chunk, ad1) := ad.read n
    let rem := n - chunk.length
    if rem = 0 then (dl, ad1, chunk)
    else
      let (dl2, buf2) := fac dl ad1.buffer
      let (dl3, ad3, rest) := fillGo fac fuel dl2 { buffer := buf2, idx := 0 } rem
      (dl3, ad3, chunk ++ rest)

/-- `FixedOutputAdapter::fill(output, factory)` for an output of length
`n`: returns the final factory state, the final adapter and the samples
written to `output`. -/
def fill (fac : DelayLine σ → List ℚ → DelayLine σ × List ℚ) (dl : DelayLine σ)
    (ad : FixedOutputAdapter) (n : ℕ) : DelayLine σ × FixedOutputAdapter × List ℚ :=
  fillGo fac (n + 1) dl ad n

/-- `DelayLine::read(samples)` for a request of `n` samples:
`std::mem::take` swaps a default adapter into `self`, the taken adapter is
filled via `read_inner`, and is finally stored back (discarding whatever
`read_inner` did to the swapped-in default adapter). -/
def read (S : RubatoLike σ) (dl : DelayLine σ) (n : ℕ) : DelayLine σ × List ℚ :=
  let output := dl.output_adapter
  let dl := { dl with output_adapter := FixedOutputAdapter.default }
  let (dl, output, samples) := fill (read_inner S) dl output n
  ({ dl with output_adapter := output }, samples)

end DelayLine

/-! ## The processing-graph engine (`src/engine.rs`)

`DeviceId` becomes `ℕ`; the distinguished null id (`DeviceId::null()`)
becomes `none` in the wiring entries.  `Box<dyn Processor>` becomes a
record holding the node's description, its private state (a counter plus
an event log — enough for every node the claims use) and its `process`
function; maps become association lists. -/

/-- `TimedMidiEvent`: the engine moves events without inspecting them, so
the payload `MidiEvent` is embedded as an opaque code. -/
structure TimedMidiEvent where
  time : ℕ
  event : ℕ
  deriving DecidableEq, Repr

/-- `ProcessorDescription` (`src/processor.rs`). -/
structure ProcessorDescription where
  min_audio_ins : ℕ
  max_audio_ins : ℕ
  num_audio_outs : ℕ
  deriving DecidableEq, Repr

/-- Private per-node state: a call counter and an event log. -/
abbrev DeviceState := ℕ × List TimedMidiEvent

/-- A `Box<dyn Processor>`: description, private state, and the `process`
method `(state, midi_in, samples, audio_in) ↦ (state, midi_out,
audio_out)`.  Each returned output block is written (as a prefix) into the
node's output view. -/
structure Device where
  descr : ProcessorDescription
  st : DeviceState
  step : DeviceState → List TimedMidiEvent → ℕ → List (List ℚ) →
    DeviceState × List TimedMidiEvent × List (List ℚ)

/-- `AudioEngine` state. -/
structure Engine where
  sample_rate : ℕ
  devices : List (ℕ × Device)
  audio_inputs : List (ℕ × List (Option ℕ × ℕ))
  audio_buffers : List ℚ
  audio_map : List ((ℕ × ℕ) × ℕ)
  midi_inputs : List (ℕ × ℕ)
  midi_buffers : List (List TimedMidiEvent)
  midi_map : List (ℕ × ℕ)
  device_order : List ℕ

namespace Engine

/-- `AudioEngine::new()`. -/
def new : Engine :=
  { sample_rate := 0, devices := [], audio_inputs := [], audio_buffers := []
    audio_map := [], midi_inputs := [], midi_buffers := [], midi_map := []
    device_order := [] }

/-- Rust `usize::clamp(min, max)`. -/
def rustClampNat (x lo hi : ℕ) : ℕ :=
  if x < lo then lo else if x > hi then hi else x

/-- `AudioEngine::set_audio_input(src_device, src_channel, dst_device,
dst_channel)` (`reconcile_graph` is a commented-out no-op in the source). -/
def set_audio_input (e : Engine) (src_device : ℕ) (src_channel dst_device dst_channel : ℕ) :
    Engine :=
  let input_map := (assocGet e.audio_inputs dst_device).getD []
  let input_map :=
    if dst_channel ≥ input_map.length then
      input_map ++ List.replicate (dst_channel + 1 - input_map.length)
        ((none : Option ℕ), 0)
    else input_map
  let input_map := input_map.set dst_channel (some src_device, src_channel)
  { e with audio_inputs := assocSet e.audio_inputs dst_device input_map }

/-- `AudioEngine::set_midi_input(src_device, dst_device)`. -/
def set_midi_input (e : Engine) (src_device dst_device : ℕ) : Engine :=
  { e with midi_inputs := assocSet e.midi_inputs dst_device src_device }

/-- One iteration of the device loop in `AudioEngine::process`: resolves
the node's audio slots, runs the aliasing guard, slices its MIDI input,
invokes `process` and stores its outputs.  `none` models a panic. -/
def stepDevice (len : ℕ) (e : Engine) (device_id : ℕ) : Option Engine :=
  match assocGet e.devices device_id with
  | none => some e
  | some device =>
    let descr := device.descr
    let inputs := (assocGet e.audio_inputs device_id).getD []
    let num_inputs := rustClampNat inputs.length descr.min_audio_ins descr.max_audio_ins
    let num_outputs := descr.num_audio_outs
    let in_idxs := (List.range num_inputs).map (fun ch =>
      ((inputs.get? ch).bind (fun i =>
        match i.1 with
        | none => none
        | some src => assocGet e.audio_map (src, i.2))).getD 0)
    let out_idxs := (List.range num_outputs).map (fun ch =>
      (assocGet e.audio_map (device_id, ch)).getD 0)
    match borrow_buffers e.audio_buffers.length len in_idxs out_idxs with
    | none => none
    | some _ =>
      let audio_in := in_idxs.map (fun idx => (e.audio_buffers.drop (idx * len)).take len)
      -- `&self.midi_buffers[*idx][..]` panics when the slot is out of range
      let midi_in :=
        match (assocGet e.midi_inputs device_id).bind (assocGet e.midi_map) with
        | some idx =>
          if idx < e.midi_buffers.length then some (e.midi_buffers.getD idx []) else none
        | none => some []
      match midi_in with
      | none => none
      | some midi_in =>
        let (st, midi_out, outs) := device.step device.st midi_in len audio_in
        let audio_buffers := (out_idxs.zip outs).foldl
          (fun acc p => listSetRange acc (p.1 * len) (p.2.take len)) e.audio_buffers
        let midi_buffers :=
          match assocGet e.midi_map device_id with
          | some mi => e.midi_buffers.set mi midi_out
          | none => e.midi_buffers
        some { e with
          devices := assocSet e.devices device_id { device with st := st }
          audio_buffers := audio_buffers
          midi_buffers := midi_buffers }

/-- `AudioEngine::process(len)`: panic (`none`) when the sample rate is
unset; resize the MIDI buffer table to 16 and the master sample array to
`16 * len` (zero-filling the first block); then run every scheduled
device in order. -/
def process (e : Engine) (len : ℕ) : Option Engine :=
  if e.sample_rate = 0 then none
  else
    let midi_buffers := listResize e.midi_buffers 16 []
    let num_buffers := 16
    let audio_buffers := listResize e.audio_buffers (num_buffers * len) 0
    let audio_buffers := listSetRange audio_buffers 0 (List.replicate len 0)
    let e := { e with midi_buffers := midi_buffers, audio_buffers := audio_buffers }
    e.device_order.foldlM (fun acc id => stepDevice len acc id) e

/-- `process` iterated `n` times (`n` consecutive blocks). -/
def processN (e : Engine) (len : ℕ) : ℕ → Option Engine
  | 0 => some e
  | n + 1 => (processN e len n).bind (fun e => e.process len)

/-- The interior of `AudioEngine::test_connect`'s slot-assignment loop:
`audio_map.insert((d, 0), i); audio_map.insert((d, 1), i + 1); i = 2 - i`. -/
def testConnectSlots : List ℕ → ℕ → List ((ℕ × ℕ) × ℕ) → List ((ℕ × ℕ) × ℕ)
  | [], _, m => m
  | d :: rest, i, m =>
    testConnectSlots rest (2 - i) (assocSet (assocSet m (d, 0) i) (d, 1) (i + 1))

/-- `AudioEngine::test_connect(devices)`: installs the execution order,
assigns alternating slot pairs to every device but the last, and wires
each consecutive pair on channels 0 and 1. -/
def test_connect (e : Engine) (ds : List ℕ) : Engine :=
  let e := { e with device_order := ds, audio_map := [] }
  let e := { e with audio_map := testConnectSlots ds.dropLast 0 [] }
  (ds.zip (ds.drop 1)).foldl
    (fun acc p => (acc.set_audio_input p.1 0 p.2 0).set_audio_input p.1 1 p.2 1) e

end Engine

/-! ## Concrete scenario instances used by the claims -/

/-- A concrete instance of the external resampler interface: it stores the
last ratio it was given, always requests `OUTPUT_SIZE` input frames, and
outputs its input frames unchanged. -/
def testSampler : RubatoLike ℚ :=
  { set_resample_ratio := fun _ ratio => ratio
    input_frames_next := fun _ => OUTPUT_SIZE
    process_into_buffer := fun st input => (st, input.take OUTPUT_SIZE) }

/-- A MIDI source node: no audio; on its `k`-th `process` call it emits the
events `f k`. -/
def midiSourceDevice (f : ℕ → List TimedMidiEvent) : Device :=
  { descr := { min_audio_ins := 0, max_audio_ins := 0, num_audio_outs := 0 }
    st := (0, [])
    step := fun st _ _ _ => ((st.1 + 1, st.2), f st.1, []) }

/-- A MIDI sink node: no audio; appends every incoming event to its log. -/
def midiSinkDevice : Device :=
  { descr := { min_audio_ins := 0, max_audio_ins := 0, num_audio_outs := 0 }
    st := (0, [])
    step := fun st midi_in _ _ => ((st.1 + 1, st.2 ++ midi_in), [], []) }

/-- An engine holding the source (id 0) wired into the sink (id 1) over
MIDI, with MIDI buffer slots 0 and 1 assigned and the given execution
order. -/
def mkMidiEngine (order : List ℕ) (f : ℕ → List TimedMidiEvent) : Engine :=
  { Engine.new with
    sample_rate := 1
    devices := [(0, midiSourceDevice f), (1, midiSinkDevice)]
    midi_inputs := [(1, 0)]
    midi_map := [(0, 0), (1, 1)]
    device_order := order }

/-- Node A of the topological-safety scenario: writes the constant `1.0`
into its single output block. -/
def constOneDevice : Device :=
  { descr := { min_audio_ins := 0, max_audio_ins := 0, num_audio_outs := 1 }
    st := (0, [])
    step := fun st _ len _ => (st, [], [List.replicate len 1]) }

/-- Node B: writes twice its input into its output block. -/
def doubleDevice : Device :=
  { descr := { min_audio_ins := 1, max_audio_ins := 1, num_audio_outs := 1 }
    st := (0, [])
    step := fun st _ _ audio_in => (st, [], [(audio_in.getD 0 []).map (fun x => 2 * x)]) }

/-- Node C: copies its input into its output block. -/
def copyDevice : Device :=
  { descr := { min_audio_ins := 1, max_audio_ins := 1, num_audio_outs := 1 }
    st := (0, [])
    step := fun st _ _ audio_in => (st, [], [audio_in.getD 0 []]) }

/-- The three-node chain A→B→C (ids 0, 1, 2) wired through
`test_connect`, with a sample rate configured. -/
def chainEngine : Engine :=
  Engine.test_connect
    { Engine.new with
      sample_rate := 1
      devices := [(0, constOneDevice), (1, doubleDevice), (2, copyDevice)] }
    [0, 1, 2]

/-- Closed form of the engine state after `n` blocks of the MIDI pair with
the source scheduled first (order `[0, 1]`): the sink's log already holds
the events of blocks `0..n-1` — same-call delivery. -/
def midiEngineSrcFirst (f : ℕ → List TimedMidiEvent) (n : ℕ) : Engine :=
  { sample_rate := 1
    devices := [(0, { midiSourceDevice f with st := (n, []) }),
                (1, { midiSinkDevice with st := (n, (List.range n).flatMap f) })]
    audio_inputs := []
    audio_buffers := if n = 0 then [] else List.replicate 16 0
    audio_map := []
    midi_inputs := [(1, 0)]
    midi_buffers := if n = 0 then [] else f (n - 1) :: List.replicate 15 []
    midi_map := [(0, 0), (1, 1)]
    device_order := [0, 1] }

/-- Closed form of the engine state after `n` blocks of the MIDI pair with
the sink scheduled first (order `[1, 0]`): the sink's log holds only the
events of blocks `0..n-2` — one block of latency. -/
def midiEngineSinkFirst (f : ℕ → List TimedMidiEvent) (n : ℕ) : Engine :=
  { sample_rate := 1
    devices := [(0, { midiSourceDevice f with st := (n, []) }),
                (1, { midiSinkDevice with st := (n, (List.range (n - 1)).flatMap f) })]
    audio_inputs := []
    audio_buffers := if n = 0 then [] else List.replicate 16 0
    audio_map := []
    midi_inputs := [(1, 0)]
    midi_buffers := if n = 0 then [] else f (n - 1) :: List.replicate 15 []
    midi_map := [(0, 0), (1, 1)]
    device_order := [1, 0] }

/-! ## Lemmas: the aliasing guard -/

theorem assert_index_valid_oob {idx max_buffers m : ℕ} (h : max_buffers ≤ idx)
    (mtb : Bool) : assert_index_valid idx max_buffers m mtb = none := by
  simp [assert_index_valid, h]

theorem assert_index_valid_hit {idx max_buffers m : ℕ} (h : m.testBit idx) :
    assert_index_valid idx max_buffers m true = none := by
  simp only [assert_index_valid]
  split
  · rfl
  · simp [h]

theorem assert_index_valid_ok {idx max_buffers m : ℕ} (h : idx < max_buffers)
    (hbit : ¬ m.testBit idx) :
    assert_index_valid idx max_buffers m true = some (m ||| 2 ^ idx) := by
  simp [assert_index_valid, Nat.not_le.mpr h, hbit, Nat.one_shiftLeft]

theorem assert_index_valid_ro {idx max_buffers m : ℕ} (h : idx < max_buffers) :
    assert_index_valid idx max_buffers m false = some (m ||| 2 ^ idx) := by
  simp [assert_index_valid, Nat.not_le.mpr h, Nat.one_shiftLeft]

/-- The fold over the input indices with `mutable = false` succeeds exactly
when every index is in range, and sets exactly the indices' bits. -/
theorem inFold_some {mb : ℕ} :
    ∀ (ins : List ℕ) (m0 : ℕ), (∀ i ∈ ins, i < mb) →
    ∃ m, ins.foldlM (fun mask idx => assert_index_valid idx mb mask false) m0 = some m ∧
      ∀ b, m.testBit b ↔ (m0.testBit b ∨ b ∈ ins)
  | [], m0, _ => ⟨m0, rfl, by simp⟩
  | i :: ins, m0, h => by
    have hi : i < mb := h i (List.mem_cons_self i ins)
    obtain ⟨m, hm, hbits⟩ := inFold_some ins (m0 ||| 2 ^ i)
      (fun j hj => h j (List.mem_cons_of_mem _ hj))
    refine ⟨m, ?_, ?_⟩
    · simpa [assert_index_valid_ro hi] using hm
    · intro b
      rw [hbits b, Nat.testBit_or]
      by_cases hbi : b = i
      · subst hbi; simp [Nat.testBit_two_pow_self]
      · simp [Nat.testBit_two_pow_of_ne (Ne.symm hbi), hbi]

theorem inFold_none {mb : ℕ} :
    ∀ (ins : List ℕ) (m0 : ℕ), (∃ i ∈ ins, mb ≤ i) →
    ins.foldlM (fun mask idx => assert_index_valid idx mb mask false) m0 = none
  | [], _, h => by simp at h
  | i :: ins, m0, h => by
    by_cases hi : i < mb
    · obtain ⟨j, hj, hjmb⟩ := h
      rcases List.mem_cons.mp hj with rfl | hj
      · omega
      · simp only [List.foldlM_cons, assert_index_valid_ro hi, Option.bind_eq_bind,
          Option.some_bind]
        exact inFold_none ins _ ⟨j, hj, hjmb⟩
    · simp [List.foldlM_cons, assert_index_valid_oob (Nat.not_lt.mp hi)]

/-- Once a slot's bit is set, a later mutable claim of that slot fails. -/
theorem outFold_none_of_bit {mb : ℕ} :
    ∀ (outs : List ℕ) (m0 b : ℕ), b ∈ outs → m0.testBit b →
    outs.foldlM (fun mask idx => assert_index_valid idx mb mask true) m0 = none
  | [], _, _, h, _ => by simp at h
  | o :: outs, m0, b, hmem, hbit => by
    by_cases ho : o < mb
    · by_cases hob : m0.testBit o
      · simp [List.foldlM_cons, assert_index_valid_hit hob]
      · rcases List.mem_cons.mp hmem with rfl | hmem
        · exact absurd hbit hob
        · simp only [List.foldlM_cons, assert_index_valid_ok ho hob,
            Option.bind_eq_bind, Option.some_bind]
          exact outFold_none_of_bit outs _ b hmem (by simp [Nat.testBit_or, hbit])
    · simp [List.foldlM_cons, assert_index_valid_oob (Nat.not_lt.mp ho)]

theorem outFold_none_oob {mb : ℕ} :
    ∀ (outs : List ℕ) (m0 : ℕ), (∃ o ∈ outs, mb ≤ o) →
    outs.foldlM (fun mask idx => assert_index_valid idx mb mask true) m0 = none
  | [], _, h => by simp at h
  | o :: outs, m0, h => by
    by_cases ho : o < mb
    · obtain ⟨j, hj, hjmb⟩ := h
      rcases List.mem_cons.mp hj with rfl | hj
      · omega
      · by_cases hob : m0.testBit o
        · simp [List.foldlM_cons, assert_index_valid_hit hob]
        · simp only [List.foldlM_cons, assert_index_valid_ok ho hob,
            Option.bind_eq_bind, Option.some_bind]
          exact outFold_none_oob outs _ ⟨j, hj, hjmb⟩
    · simp [List.foldlM_cons, assert_index_valid_oob (Nat.not_lt.mp ho)]

theorem outFold_some {mb : ℕ} :
    ∀ (outs : List ℕ) (m0 : ℕ), outs.Nodup → (∀ o ∈ outs, o < mb ∧ ¬ m0.testBit o) →
    ∃ m, outs.foldlM (fun mask idx => assert_index_valid idx mb mask true) m0 = some m
  | [], m0, _, _ => ⟨m0, rfl⟩
  | o :: outs, m0, hnd, h => by
    obtain ⟨ho, hob⟩ := h o (List.mem_cons_self o outs)
    obtain ⟨m, hm⟩ := outFold_some outs (m0 ||| 2 ^ o) (List.Nodup.of_cons hnd)
      (fun j hj => by
        refine ⟨(h j (List.mem_cons_of_mem _ hj)).1, ?_⟩
        have hne : j ≠ o := fun hEq => (List.nodup_cons.mp hnd).1 (hEq ▸ hj)
        simp [Nat.testBit_or, (h j (List.mem_cons_of_mem _ hj)).2,
          Nat.testBit_two_pow_of_ne (Ne.symm hne)])
    exact ⟨m, by simp [List.foldlM_cons, assert_index_valid_ok ho hob, hm]⟩

theorem outFold_nodup {mb : ℕ} :
    ∀ (outs : List ℕ) (m0 m : ℕ),
    outs.foldlM (fun mask idx => assert_index_valid idx mb mask true) m0 = some m →
    outs.Nodup
  | [], _, _, _ => List.nodup_nil
  | o :: outs, m0, m, h => by
    by_cases ho : o < mb
    · by_cases hob : m0.testBit o
      · simp [List.foldlM_cons, assert_index_valid_hit hob] at h
      · rw [List.foldlM_cons, assert_index_valid_ok ho hob] at h
        simp only [Option.bind_eq_bind, Option.some_bind] at h
        refine List.nodup_cons.mpr ⟨fun hmem => ?_, outFold_nodup outs _ m h⟩
        rw [outFold_none_of_bit outs _ o hmem
          (by simp [Nat.testBit_or, Nat.testBit_two_pow_self])] at h
        exact Option.noConfusion h
    · simp [List.foldlM_cons, assert_index_valid_oob (Nat.not_lt.mp ho)] at h

/-- Distinct slot indices yield disjoint `(idx * len, len)` ranges. -/
theorem ranges_disjoint_of_ne {a b len : ℕ} (h : a ≠ b) :
    RangesDisjoint (a * len, len) (b * len, len) := by
  rcases Nat.lt_or_ge a b with hab | hab
  · left
    have h2 : (a + 1) * len ≤ b * len := Nat.mul_le_mul_right len hab
    simpa [Nat.succ_mul] using h2
  · right
    have hba : b < a := by omega
    have h2 : (b + 1) * len ≤ a * len := Nat.mul_le_mul_right len hba
    simpa [Nat.succ_mul] using h2

/-- C1, amended.  A call to the buffer-borrowing routine with block length
`len ≥ 1` succeeds — returning pairwise non-overlapping output views
`master[idx*len .. idx*len+len)` — when the output slot indices are
pairwise distinct, every requested index (input or output) is below
`min(master.len()/len, 64)`, **and no output index equals an input index**
(the guard's bitmask also records the call's input slots, so an
input/output collision panics); and it panics (`none`) whenever an output
slot index occurs twice or any requested index is out of range. -/
theorem borrow_buffers_guard (masterLen len : ℕ) (ins outs : List ℕ)
    (hlen : 1 ≤ len) :
    (outs.Nodup → (∀ i ∈ ins ++ outs, i < min (masterLen / len) 64) →
      (∀ o ∈ outs, o ∉ ins) →
      ∃ inViews outViews,
        borrow_buffers masterLen len ins outs = some (inViews, outViews) ∧
        outViews = outs.map (fun idx => (idx * len, len)) ∧
        inViews = ins.map (fun idx => (idx * len, len)) ∧
        outViews.Pairwise RangesDisjoint)
    ∧ ((¬ outs.Nodup ∨ ∃ i ∈ ins ++ outs, min (masterLen / len) 64 ≤ i) →
      borrow_buffers masterLen len ins outs = none) := by
  set mb := min (masterLen / len) 64 with hmb
  constructor
  · intro hnd hrange hdisj
    obtain ⟨m, hm, hbits⟩ := @inFold_some mb ins 0
      (fun i hi => hrange i (List.mem_append_left _ hi))
    obtain ⟨m', hm'⟩ := @outFold_some mb outs m hnd (fun o ho => by
      refine ⟨hrange o (List.mem_append_right _ ho), ?_⟩
      rw [hbits o]
      simp [hdisj o ho])
    refine ⟨_, _, ?_, rfl, rfl, ?_⟩
    · simp [borrow_buffers, ← hmb, hm, hm']
    · exact List.Pairwise.map _ (fun a b hab => ranges_disjoint_of_ne hab) hnd
  · intro hbad
    rcases hbad with hdup | ⟨i, hi, hioob⟩
    · simp only [borrow_buffers, ← hmb]
      cases hfold : ins.foldlM (fun mask idx => assert_index_valid idx mb mask false) 0 with
      | none => simp
      | some m =>
        simp only []
        cases hfold' : outs.foldlM (fun mask idx => assert_index_valid idx mb mask true) m with
        | none => simp
        | some m' => exact absurd (outFold_nodup outs m m' hfold') hdup
    · rcases List.mem_append.mp hi with hin | hout
      · simp [borrow_buffers, ← hmb, inFold_none ins 0 ⟨i, hin, hioob⟩]
      · simp only [borrow_buffers, ← hmb]
        cases hfold : ins.foldlM (fun mask idx => assert_index_valid idx mb mask false) 0 with
        | none => simp
        | some m => simp [outFold_none_oob outs m ⟨i, hout, hioob⟩]

/-- C1 witness: a concrete valid request succeeds with disjoint views, and
a concrete duplicate request panics. -/
theorem borrow_buffers_guard_witness :
    (∃ inViews outViews,
      borrow_buffers 8 2 [1] [0, 2] = some (inViews, outViews) ∧
      outViews = [(0, 2), (4, 2)] ∧ inViews = [(2, 2)] ∧
      outViews.Pairwise RangesDisjoint) ∧
    borrow_buffers 8 2 [1] [0, 0] = none := by
  constructor
  · have h := (borrow_buffers_guard 8 2 [1] [0, 2] (by decide)).1
      (by decide) (by decide) (by decide)
    simpa using h
  · exact (borrow_buffers_guard 8 2 [1] [0, 0] (by decide)).2 (Or.inl (by decide))

/-- C10.  Input slot indices are recorded in the claimed-slot bitmask, so a
call that requests an output view on a slot that also appears among its
input slots panics (`none`), unconditionally; while a call with only input
views — even with repeated input indices — succeeds whenever the indices
are in range. -/
theorem borrow_buffers_inputs_block_outputs (masterLen len : ℕ) (ins outs : List ℕ) :
    (∀ o, o ∈ ins → o ∈ outs → borrow_buffers masterLen len ins outs = none)
    ∧ ((∀ i ∈ ins, i < min (masterLen / len) 64) →
        ∃ r, borrow_buffers masterLen len ins [] = some r) := by
  set mb := min (masterLen / len) 64 with hmb
  constructor
  · intro o hoin hoout
    simp only [borrow_buffers, ← hmb]
    cases hfold : ins.foldlM (fun mask idx => assert_index_valid idx mb mask false) 0 with
    | none => rfl
    | some m =>
      have hbit : m.testBit o := by
        by_cases hbound : ∀ i ∈ ins, i < mb
        · obtain ⟨m', hm', hbits⟩ := @inFold_some mb ins 0 hbound
          rw [hfold] at hm'
          cases hm'
          exact (hbits o).mpr (Or.inr hoin)
        · push_neg at hbound
          obtain ⟨i, hi, hioob⟩ := hbound
          rw [inFold_none ins 0 ⟨i, hi, hioob⟩] at hfold
          exact Option.noConfusion hfold
      simp [outFold_none_of_bit outs m o hoout hbit]
  · intro hbound
    obtain ⟨m, hm, _⟩ := @inFold_some mb ins 0 hbound
    exact ⟨(ins.map (fun idx => (idx * len, len)), []),
      by simp [borrow_buffers, ← hmb, hm]⟩

/-- C10 witness: input slot 2 may be borrowed twice as an input, but an
output view on slot 2 in the same call panics. -/
theorem borrow_buffers_inputs_block_outputs_witness :
    borrow_buffers 4 1 [2, 2] [2] = none ∧
    ∃ r, borrow_buffers 4 1 [2, 2] [] = some r :=
  ⟨(borrow_buffers_inputs_block_outputs 4 1 [2, 2] [2]).1 2 (by decide) (by decide),
   (borrow_buffers_inputs_block_outputs 4 1 [2, 2] []).2 (by decide)⟩

/-- C1 counterexample: with `master.len() = 4`, `len = 1`, input slots
`[0]` and output slots `[0]`, the output indices are pairwise distinct and
every index is below `min(4/1, 64) = 4`, yet the call panics (the claim as
stated predicts success). -/
theorem borrow_buffers_guard_counterexample :
    borrow_buffers 4 1 [0] [0] = none ∧ ([0] : List ℕ).Nodup ∧
    ∀ i ∈ ([0] ++ [0] : List ℕ), i < min (4 / 1) 64 := by
  decide

/-! ## Lemmas: list surgery -/

theorem length_listSetRange {α : Type _} {l xs : List α} {i : ℕ}
    (h : i + xs.length ≤ l.length) :
    (listSetRange l i xs).length = l.length := by
  simp only [listSetRange, List.length_append, List.length_take, List.length_drop]
  omega

theorem getElem?_listSetRange {α : Type _} {l xs : List α} {i k : ℕ}
    (h : i + xs.length ≤ l.length) :
    (listSetRange l i xs)[k]? =
      if i ≤ k ∧ k < i + xs.length then xs[k - i]? else l[k]? := by
  have hti : (l.take i).length = i := by simp; omega
  unfold listSetRange
  rw [List.append_assoc, List.getElem?_append, hti]
  by_cases h1 : k < i
  · rw [if_pos h1, List.getElem?_take, if_pos h1, if_neg (by omega)]
  · rw [if_neg h1]
    by_cases h2 : k < i + xs.length
    · rw [List.getElem?_append, if_pos (by omega : k - i < xs.length), if_pos (by omega)]
    · rw [List.getElem?_append, if_neg (by omega), List.getElem?_drop, if_neg (by omega)]
      congr 1
      omega

theorem take_listSetRange_self {α : Type _} {l xs : List α}
    (h : xs.length ≤ l.length) :
    (listSetRange l 0 xs).take xs.length = xs := by
  simp only [listSetRange, List.take_nil, List.take_zero, List.nil_append, Nat.zero_add]
  rw [List.take_left]

theorem drop_take_listSetRange_self {α : Type _} {l xs : List α} {i : ℕ}
    (h : i + xs.length ≤ l.length) :
    ((listSetRange l i xs).drop i).take xs.length = xs := by
  apply List.ext_getElem?
  intro n
  rw [List.getElem?_take]
  by_cases hn : n < xs.length
  · rw [if_pos hn, List.getElem?_drop, getElem?_listSetRange h, if_pos (by omega)]
    congr 1
    omega
  · rw [if_neg hn]
    exact (List.getElem?_eq_none (by omega)).symm

theorem drop_take_listSetRange_of_le {α : Type _} {l xs : List α} {i j m : ℕ}
    (h : i + xs.length ≤ l.length) (hjm : j + m ≤ i) :
    ((listSetRange l i xs).drop j).take m = (l.drop j).take m := by
  apply List.ext_getElem?
  intro n
  rw [List.getElem?_take, List.getElem?_take]
  by_cases hn : n < m
  · rw [if_pos hn, if_pos hn, List.getElem?_drop, List.getElem?_drop,
      getElem?_listSetRange h, if_neg (by omega)]
  · rw [if_neg hn, if_neg hn]

theorem drop_take_listSetRange_of_ge {α : Type _} {l xs : List α} {i j m : ℕ}
    (h : i + xs.length ≤ l.length) (hij : i + xs.length ≤ j) :
    ((listSetRange l i xs).drop j).take m = (l.drop j).take m := by
  apply List.ext_getElem?
  intro n
  rw [List.getElem?_take, List.getElem?_take]
  by_cases hn : n < m
  · rw [if_pos hn, if_pos hn, List.getElem?_drop, List.getElem?_drop,
      getElem?_listSetRange h, if_neg (by omega)]
  · rw [if_neg hn, if_neg hn]

/-! ## Lemmas: the ring buffer round trip -/

theorem mod_two_block {a N : ℕ} (h : a < 2 * N) :
    a % N = if a < N then a else a - N := by
  split
  · exact Nat.mod_eq_of_lt (by omega)
  · rw [Nat.mod_eq_sub_mod (by omega), Nat.mod_eq_of_lt (by omega)]

theorem mod_add_cong {a b k N : ℕ} (h : a % N = b % N) :
    (a + k) % N = (b + k) % N := by
  rw [Nat.add_mod, h, ← Nat.add_mod]

/-- The ring position of an unread sample never coincides with a position
that an in-capacity write is about to overwrite. -/
theorem unread_pos_ne_write_pos {N W r t u x : ℕ}
    (ht : t < W - r) (hu : u < x) (hcap : W + x - r ≤ N) :
    (r + t) % N ≠ (W + u) % N := by
  intro heq
  have hle : r + t ≤ W + u := by omega
  have hdvd : N ∣ W + u - (r + t) := (Nat.modEq_iff_dvd' hle).mp heq
  have hlt : W + u - (r + t) < N := by omega
  have hpos : 0 < W + u - (r + t) := by omega
  exact absurd (Nat.le_of_dvd hpos hdvd) (by omega)

theorem ring_read_correct {N : ℕ} {rb : RingBuffer} {ws : List ℚ} {r n : ℕ}
    (hN : 1 ≤ N) (inv : RingInv N rb ws r) (hn : r + n ≤ ws.length) :
    (rb.read n).1 = (ws.drop r).take n ∧ RingInv N (rb.read n).2 ws (r + n) := by
  obtain ⟨hbuf, hr, hcap, hri_le, hri, hwi_le, hwi, hdata⟩ := inv
  have hnN : n ≤ N := by omega
  have hrhs : ∀ k, ((ws.drop r).take n)[k]? = if k < n then ws[r + k]? else none := by
    intro k
    rw [List.getElem?_take]
    by_cases hk : k < n
    · rw [if_pos hk, if_pos hk, List.getElem?_drop]
    · rw [if_neg hk, if_neg hk]
  have hget : ∀ k, k < n → rb.buffer[(r + k) % N]? = ws[r + k]? :=
    fun k hk => hdata k (by omega)
  simp only [RingBuffer.read]
  by_cases hwrap : rb.read_idx + n > rb.buffer.length
  · rw [if_pos hwrap]
    dsimp only
    rw [hbuf] at hwrap
    have hlen_drop : (rb.buffer.drop rb.read_idx).length = N - rb.read_idx := by
      simp [hbuf]
    refine ⟨?_, ?_⟩
    · apply List.ext_getElem?
      intro k
      rw [hrhs k, List.getElem?_append]
      by_cases hk1 : k < N - rb.read_idx
      · rw [if_pos (by omega), List.getElem?_drop]
        have hkn : k < n := by omega
        rw [if_pos hkn, ← hget k hkn]
        congr 1
        rw [mod_add_cong hri.symm, Nat.mod_eq_of_lt (by omega)]
      · rw [if_neg (by omega), hlen_drop, List.getElem?_take, hbuf]
        by_cases hkn : k < n
        · rw [if_pos (by omega), if_pos hkn, ← hget k hkn]
          congr 1
          rw [mod_add_cong hri.symm, mod_two_block (by omega), if_neg (by omega)]
          omega
        · rw [if_neg (by omega), if_neg hkn]
    · refine ⟨hbuf, by omega, by omega, by dsimp only; omega, ?_, hwi_le, hwi, ?_⟩
      · dsimp only
        have h1 : (rb.read_idx + n - rb.buffer.length) % N = (rb.read_idx + n) % N := by
          rw [hbuf]
          exact (Nat.mod_eq_sub_mod (by omega)).symm
        rw [h1, mod_add_cong hri]
      · intro t ht
        have := hdata (n + t) (by omega)
        rw [← Nat.add_assoc] at this
        exact this
  · rw [if_neg hwrap]
    dsimp only
    rw [hbuf] at hwrap
    refine ⟨?_, ?_⟩
    · apply List.ext_getElem?
      intro k
      rw [hrhs k, List.getElem?_take]
      by_cases hk : k < n
      · rw [if_pos hk, if_pos hk, List.getElem?_drop, ← hget k hk]
        congr 1
        rw [mod_add_cong hri.symm, Nat.mod_eq_of_lt (by omega)]
      · rw [if_neg hk, if_neg hk]
    · refine ⟨hbuf, by omega, by omega, by dsimp only; omega, ?_, hwi_le, hwi, ?_⟩
      · dsimp only
        rw [mod_add_cong hri]
      · intro t ht
        have := hdata (n + t) (by omega)
        rw [← Nat.add_assoc] at this
        exact this

theorem ring_write_correct {N : ℕ} {rb : RingBuffer} {ws xs : List ℚ} {r : ℕ}
    (hN : 1 ≤ N) (inv : RingInv N rb ws r) (hx : xs.length ≤ N)
    (hcap2 : ws.length + xs.length - r ≤ N) :
    RingInv N (rb.write xs) (ws ++ xs) r := by
  obtain ⟨hbuf, hr, hcap, hri_le, hri, hwi_le, hwi, hdata⟩ := inv
  have hpos_new : ∀ u : ℕ, (rb.write_idx + u) % N = (ws.length + u) % N :=
    fun u => mod_add_cong hwi
  have hold_rhs : ∀ t, t < ws.length - r → (ws ++ xs)[r + t]? = ws[r + t]? := by
    intro t ht
    rw [List.getElem?_append, if_pos (by omega)]
  have hnew_rhs : ∀ u, u < xs.length → (ws ++ xs)[ws.length + u]? = xs[u]? := by
    intro u hu
    rw [List.getElem?_append, if_neg (by omega)]
    congr 1
    omega
  simp only [RingBuffer.write]
  by_cases hwrap : rb.write_idx + xs.length > rb.buffer.length
  · rw [if_pos hwrap]
    rw [hbuf] at hwrap
    have htake_len : (xs.take (rb.buffer.length - rb.write_idx)).length
        = N - rb.write_idx := by
      rw [List.length_take, hbuf]
      omega
    have hdrop_len : (xs.drop (rb.buffer.length - rb.write_idx)).length
        = xs.length - (N - rb.write_idx) := by
      rw [List.length_drop, hbuf]
    have hinner_bound : rb.write_idx + (xs.take (rb.buffer.length - rb.write_idx)).length
        ≤ rb.buffer.length := by
      rw [htake_len, hbuf]
      omega
    have hinner_len : (listSetRange rb.buffer rb.write_idx
        (xs.take (rb.buffer.length - rb.write_idx))).length = N := by
      rw [length_listSetRange hinner_bound, hbuf]
    have houter_bound : 0 + (xs.drop (rb.buffer.length - rb.write_idx)).length
        ≤ (listSetRange rb.buffer rb.write_idx
            (xs.take (rb.buffer.length - rb.write_idx))).length := by
      rw [hdrop_len, hinner_len]
      omega
    refine ⟨?_, by simp; omega, by simp; omega, hri_le, hri, by dsimp only; omega, ?_, ?_⟩
    · dsimp only
      rw [length_listSetRange houter_bound, hinner_len]
    · dsimp only [List.length_append]
      have h1 : (rb.write_idx + xs.length - rb.buffer.length) % N
          = (rb.write_idx + xs.length) % N := by
        rw [hbuf]
        exact (Nat.mod_eq_sub_mod (by omega)).symm
      rw [h1, mod_add_cong hwi, List.length_append]
    · intro t ht
      dsimp only at ht ⊢
      rw [List.length_append] at ht
      have hp : (r + t) % N < N := Nat.mod_lt _ (by omega)
      by_cases htold : t < ws.length - r
      · rw [hold_rhs t htold, ← hdata t htold,
          getElem?_listSetRange houter_bound, if_neg ?hA,
          getElem?_listSetRange hinner_bound, if_neg ?hB]
        case hA =>
          rw [hdrop_len]
          rintro ⟨-, hlt⟩
          have hu : (r + t) % N + (N - rb.write_idx) < xs.length := by omega
          have heq : (r + t) % N
              = (ws.length + ((r + t) % N + (N - rb.write_idx))) % N := by
            rw [← hpos_new]
            have h2 : rb.write_idx + ((r + t) % N + (N - rb.write_idx))
                = (r + t) % N + N := by omega
            rw [h2, Nat.add_mod_right, Nat.mod_eq_of_lt hp]
          exact unread_pos_ne_write_pos htold hu hcap2 heq
        case hB =>
          rw [htake_len]
          rintro ⟨hge, hlt⟩
          have hu : (r + t) % N - rb.write_idx < xs.length := by omega
          have heq : (r + t) % N
              = (ws.length + ((r + t) % N - rb.write_idx)) % N := by
            rw [← hpos_new]
            have h2 : rb.write_idx + ((r + t) % N - rb.write_idx) = (r + t) % N := by
              omega
            rw [h2, Nat.mod_eq_of_lt hp]
          exact unread_pos_ne_write_pos htold hu hcap2 heq
      · have hu : t - (ws.length - r) < xs.length := by omega
        have hrt : r + t = ws.length + (t - (ws.length - r)) := by omega
        rw [hrt, hnew_rhs _ hu, ← hpos_new]
        have hiu2 : rb.write_idx + (t - (ws.length - r)) < 2 * N := by omega
        rw [mod_two_block hiu2]
        by_cases hiu : rb.write_idx + (t - (ws.length - r)) < N
        · rw [if_pos hiu,
            getElem?_listSetRange houter_bound, if_neg (by rw [hdrop_len]; rintro ⟨-, hc⟩; omega),
            getElem?_listSetRange hinner_bound,
            if_pos ⟨by omega, by rw [htake_len]; omega⟩,
            List.getElem?_take, if_pos (by rw [hbuf]; omega)]
          congr 1
          omega
        · rw [if_neg hiu,
            getElem?_listSetRange houter_bound,
            if_pos ⟨Nat.zero_le _, by rw [hdrop_len]; omega⟩,
            List.getElem?_drop]
          congr 1
          rw [hbuf]
          omega
  · rw [if_neg hwrap]
    rw [hbuf] at hwrap
    have hbound : rb.write_idx + xs.length ≤ rb.buffer.length := by rw [hbuf]; omega
    refine ⟨?_, by simp; omega, by simp; omega, hri_le, hri, by dsimp only; omega, ?_, ?_⟩
    · dsimp only
      rw [length_listSetRange hbound, hbuf]
    · dsimp only [List.length_append]
      rw [mod_add_cong hwi, List.length_append]
    · intro t ht
      dsimp only at ht ⊢
      rw [List.length_append] at ht
      have hp : (r + t) % N < N := Nat.mod_lt _ (by omega)
      by_cases htold : t < ws.length - r
      · rw [hold_rhs t htold, ← hdata t htold,
          getElem?_listSetRange hbound, if_neg ?hC]
        case hC =>
          rintro ⟨hge, hlt⟩
          have hu : (r + t) % N - rb.write_idx < xs.length := by omega
          have heq : (r + t) % N
              = (ws.length + ((r + t) % N - rb.write_idx)) % N := by
            rw [← hpos_new]
            have h2 : rb.write_idx + ((r + t) % N - rb.write_idx) = (r + t) % N := by
              omega
            rw [h2, Nat.mod_eq_of_lt hp]
          exact unread_pos_ne_write_pos htold hu hcap2 heq
      · have hu : t - (ws.length - r) < xs.length := by omega
        have hrt : r + t = ws.length + (t - (ws.length - r)) := by omega
        rw [hrt, hnew_rhs _ hu, ← hpos_new]
        have hiu : rb.write_idx + (t - (ws.length - r)) < N := by omega
        rw [Nat.mod_eq_of_lt hiu,
          getElem?_listSetRange hbound, if_pos ⟨by omega, by omega⟩]
        congr 1
        omega

theorem take_drop_append_left {α : Type _} {ws tail : List α} {r n : ℕ}
    (h : r + n ≤ ws.length) :
    ((ws ++ tail).drop r).take n = (ws.drop r).take n := by
  apply List.ext_getElem?
  intro k
  rw [List.getElem?_take, List.getElem?_take]
  by_cases hk : k < n
  · rw [if_pos hk, if_pos hk, List.getElem?_drop, List.getElem?_drop,
      List.getElem?_append, if_pos (by omega)]
  · rw [if_neg hk, if_neg hk]

theorem runRingOps_reads {N : ℕ} (hN : 1 ≤ N) :
    ∀ (ops : List RingOp) (rb : RingBuffer) (ws : List ℚ) (r : ℕ),
    RingInv N rb ws r → validRingOps N ws.length r ops = true →
    (runRingOps rb ops).2 =
      ((ws ++ writtenSamples ops).drop r).take (readTotal ops)
  | [], rb, ws, r, _, _ => by simp [runRingOps, readTotal]
  | RingOp.write xs :: rest, rb, ws, r, inv, hv => by
    simp only [validRingOps, Bool.and_eq_true, decide_eq_true_eq] at hv
    obtain ⟨⟨h1, h2⟩, h3⟩ := hv
    have inv' := ring_write_correct hN inv h1 h2
    have ih := runRingOps_reads hN rest (rb.write xs) (ws ++ xs) r inv'
      (by simpa using h3)
    simp only [runRingOps, writtenSamples, readTotal]
    rw [ih, List.append_assoc]
  | RingOp.read n :: rest, rb, ws, r, inv, hv => by
    simp only [validRingOps, Bool.and_eq_true, decide_eq_true_eq] at hv
    obtain ⟨⟨h1, h2⟩, h3⟩ := hv
    obtain ⟨hout, inv'⟩ := ring_read_correct hN inv h2
    have ih := runRingOps_reads hN rest (rb.read n).2 ws (r + n) inv' h3
    simp only [runRingOps, writtenSamples, readTotal]
    rw [ih, hout, List.take_add, List.drop_drop, take_drop_append_left h2]

/-- C2.  For every ring buffer of capacity `N ≥ 1` and every sequence of
`write`/`read` calls in which each call's length is at most `N`, the total
read never exceeds the total written and the written-but-unread count
never exceeds `N` (`validRingOps`), the concatenation of the samples
returned by the reads equals the corresponding prefix of the concatenation
of the samples written, in order — wraparound included.  (Sequences of
writes followed by reads are the special case the claim spells out.) -/
theorem ring_buffer_round_trip (N : ℕ) (ops : List RingOp) (hN : 1 ≤ N)
    (hvalid : validRingOps N 0 0 ops = true) :
    (runRingOps (RingBuffer.new N) ops).2 =
      (writtenSamples ops).take (readTotal ops) := by
  have inv : RingInv N (RingBuffer.new N) [] 0 :=
    ⟨by simp [RingBuffer.new], Nat.le_refl 0, by simp, Nat.zero_le N, rfl,
     Nat.zero_le N, rfl, fun t ht => absurd ht (by simp)⟩
  have h := runRingOps_reads hN ops (RingBuffer.new N) [] 0 inv hvalid
  simpa using h

/-- C2 witness: capacity 2, with the second write and the final read both
wrapping around the end of the buffer. -/
theorem ring_buffer_round_trip_witness :
    validRingOps 2 0 0
      [RingOp.write [5, 7], RingOp.read 1, RingOp.write [9], RingOp.read 2] = true ∧
    (runRingOps (RingBuffer.new 2)
      [RingOp.write [5, 7], RingOp.read 1, RingOp.write [9], RingOp.read 2]).2 =
      [5, 7, 9] :=
  ⟨by decide,
   (ring_buffer_round_trip 2 _ (by decide) (by decide)).trans (by decide)⟩

/-! ## Lemmas: the delay line's ratio, control law and reallocation -/

/-- C4, amended.  The resample ratio handed to the resampler on every read
batch is `clamp(warp/sample_rate + 1, 0.1, 10.0)` — not
`max(0, warp/sample_rate + 1)`: it is never negative (it is at least
`0.1`), and for every warp more negative than `-sample_rate` it is exactly
`0.1`, not `0`. -/
theorem delay_ratio_clamped (warp sample_rate : ℚ) (h : 0 < sample_rate) :
    DelayLine.resampleRatio warp sample_rate
      = max (1/10) (min 10 (warp / sample_rate + 1)) ∧
    0 < DelayLine.resampleRatio warp sample_rate ∧
    (warp < -sample_rate → DelayLine.resampleRatio warp sample_rate = 1/10) := by
  refine ⟨?_, ?_, ?_⟩
  · unfold DelayLine.resampleRatio
    dsimp only
    split_ifs with h1 h2
    · rw [max_eq_left]
      exact le_of_lt (lt_of_le_of_lt (min_le_right _ _) h1)
    · rw [min_eq_left (le_of_lt h2), max_eq_right (by norm_num)]
    · rw [min_eq_right (not_lt.mp h2), max_eq_right (not_lt.mp h1)]
  · unfold DelayLine.resampleRatio
    dsimp only
    split_ifs with h1 h2 <;> [norm_num; norm_num; linarith [not_lt.mp h1]]
  · intro hw
    have hdiv : warp / sample_rate < -1 := by
      rw [div_lt_iff h]
      linarith
    unfold DelayLine.resampleRatio
    dsimp only
    rw [if_pos (by linarith)]

/-- C4 witness: at `warp = -3`, `sample_rate = 1` (more negative than
`-sample_rate`), the ratio is exactly `0.1`, and positive. -/
theorem delay_ratio_clamped_witness :
    DelayLine.resampleRatio (-3) 1 = 1/10 ∧
    0 < DelayLine.resampleRatio (-3) 1 :=
  ⟨(delay_ratio_clamped (-3) 1 (by norm_num)).2.2 (by norm_num),
   (delay_ratio_clamped (-3) 1 (by norm_num)).2.1⟩

/-- C4 counterexample: at `warp = -2`, `sample_rate = 1` the code uses
ratio `0.1`, while the claimed formula `max(0, warp/sample_rate + 1)`
yields `0`. -/
theorem delay_ratio_counterexample :
    DelayLine.resampleRatio (-2) 1 = 1/10 ∧
    max 0 ((-2 : ℚ) / 1 + 1) = 0 ∧ (1/10 : ℚ) ≠ 0 := by
  refine ⟨?_, by norm_num, by norm_num⟩
  unfold DelayLine.resampleRatio
  norm_num

/-- C5, amended.  There is no epsilon snap in the delay line: even when the
delay error is exactly zero, `update_warp` still applies the control law —
the new warp is `warp * (1 - 16 * batch/sample_rate)`, not zero — and the
read path never seeks the ring's read cursor to the target. -/
theorem update_warp_no_snap {σ : Type} (dl : DelayLine σ) (samples : ℕ)
    (herr : dl.ring.delay = dl.target_delay) :
    (dl.update_warp samples).warp
      = dl.warp * (1 - 16 * ((samples : ℚ) / dl.sample_rate)) := by
  unfold DelayLine.update_warp
  dsimp only
  rw [herr]
  ring

unseal Rat.add Rat.mul Rat.sub Rat.inv in
/-- C5 witness: a batch of 32 at sample rate 32 with warp 1 and zero error
multiplies the warp by `1 - 16 = -15`. -/
theorem update_warp_no_snap_witness :
    ((DelayLine.update_warp
        { (DelayLine.new 2 (1:ℚ)).set_sample_rate 32 with warp := 1 } 32).warp)
      = 1 * (1 - 16 * ((32 : ℚ) / 32)) :=
  update_warp_no_snap _ 32 (by decide)

unseal Rat.add Rat.mul Rat.sub Rat.inv in
/-- C5 counterexample: a read batch whose delay error is exactly 0 (below
any epsilon) updates the warp to `-15` instead of snapping it to 0, and
afterwards the ring delay is 0, not the target delay of 32. -/
theorem update_warp_no_snap_counterexample :
    (let dl : DelayLine ℚ :=
      { (((DelayLine.new 2 (1:ℚ)).set_sample_rate 32).write
          (List.replicate 32 1)).set_target_delay 1 with warp := 1 };
    dl.ring.delay = dl.target_delay ∧ dl.target_delay = 32 ∧
    (DelayLine.read_inner testSampler dl (List.replicate 32 0)).1.warp = -15 ∧
    ((-15 : ℚ) ≠ 0) ∧
    (DelayLine.read_inner testSampler dl (List.replicate 32 0)).1.ring.delay = 0) := by
  decide

/-- C6, amended.  `set_sample_rate(rate)` stores the rate and reallocates
the ring buffer with capacity `(max_delay * rate) as usize` — but the
fresh ring has both cursors at 0, so its delay is 0 regardless of the
then-current target delay (the read cursor is *not* positioned at the
target delay). -/
theorem set_sample_rate_reallocates {σ : Type} (dl : DelayLine σ) (rate : ℕ) :
    (dl.set_sample_rate rate).ring.buffer.length
        = (⌊dl.max_delay * (rate : ℚ)⌋).toNat ∧
    (dl.set_sample_rate rate).ring.read_idx = 0 ∧
    (dl.set_sample_rate rate).ring.write_idx = 0 ∧
    (dl.set_sample_rate rate).ring.delay = 0 ∧
    (dl.set_sample_rate rate).sample_rate = (rate : ℚ) ∧
    (dl.set_sample_rate rate).target_delay = dl.target_delay := by
  refine ⟨?_, rfl, rfl, ?_, rfl, rfl⟩
  · simp [DelayLine.set_sample_rate, RingBuffer.new]
  · have h0 : ∀ n : ℤ, Int.emod 0 n = 0 := fun n => Int.zero_emod n
    simp [DelayLine.set_sample_rate, RingBuffer.new, RingBuffer.delay, h0]

unseal Rat.add Rat.mul Rat.sub Rat.inv in
/-- C6 counterexample: a delay line whose target delay is 50 samples at the
moment `set_sample_rate(100)` is called ends up with ring delay 0, not
50. -/
theorem set_sample_rate_counterexample :
    (let dl : DelayLine ℚ :=
      (((DelayLine.new 1 (1:ℚ)).set_sample_rate 100).set_target_delay
        (1/2)).set_sample_rate 100;
    dl.target_delay = 50 ∧ dl.ring.delay = 0 ∧ (0 : ℕ) ≠ 50) := by
  decide

/-! ## Lemmas: the delay line's underrun path -/

unseal Rat.add Rat.mul Rat.sub Rat.inv in
/-- C3 (code bug).  A `read` issued before any `write` does return exact
zeros (first conjunct).  But the general underrun-silence claim fails on
the code: after a successful read has left nonzero samples in the output
adapter, a later read whose batch underruns (the resampler wants
`OUTPUT_SIZE = 32` input frames, the ring holds 0) emits the STALE samples
of the previous batch instead of silence — `DelayLine::read` takes the
adapter out with `std::mem::take`, so `read_inner`'s `write_silence` call
fills the freshly swapped-in default adapter rather than the buffer being
emitted. -/
theorem delay_line_underrun_stale :
    (DelayLine.read testSampler ((DelayLine.new 2 (1:ℚ)).set_sample_rate 32) 32).2
      = List.replicate 32 0 ∧
    (let r1 := DelayLine.read testSampler
        (((DelayLine.new 2 (1:ℚ)).set_sample_rate 32).write (List.replicate 32 1)) 32;
     r1.2 = List.replicate 32 1 ∧
     r1.1.ring.delay = 0 ∧
     testSampler.input_frames_next r1.1.samplerState = 32 ∧
     (DelayLine.read testSampler r1.1 32).2 = List.replicate 32 1 ∧
     List.replicate 32 (1:ℚ) ≠ List.replicate 32 0) := by
  decide

/-! ## Lemmas: the resampler's exact sizing contract -/

theorem mapM_option_exists {α β : Type _} (f : α → Option β) :
    ∀ l : List α, (∀ a ∈ l, ∃ b, f a = some b) → ∃ out, l.mapM f = some out
  | [], _ => ⟨[], rfl⟩
  | a :: l, h => by
    obtain ⟨b, hb⟩ := h a (List.mem_cons_self a l)
    obtain ⟨out, hout⟩ := mapM_option_exists f l
      (fun c hc => h c (List.mem_cons_of_mem _ hc))
    exact ⟨b :: out, by rw [List.mapM_cons, hb, hout]; rfl⟩

/-- C7.  From every state with fractional position `x1 ≥ window` (as
`new`/`reset` establish and `resample` maintains), for every `ratio > 0`
and output length `≥ 1`: supplying exactly
`next_input_size = ⌊x1 + ratio*n⌋ + 2 + window` input samples makes
`resample` succeed (no bounds assertion fires), and the updated fractional
position again lies in `[window, window + 1)`. -/
theorem resample_sizing_exact (x1 ratio : ℚ) (samples_in : List ℚ) (out_len : ℕ)
    (hx1 : ((CubicInterpolator.window : ℕ) : ℚ) ≤ x1) (hratio : 0 < ratio)
    (hn : 1 ≤ out_len)
    (hlen : samples_in.length = Resampler.next_input_size x1 out_len ratio) :
    ∃ out adv x1',
      Resampler.resample x1 samples_in out_len ratio = some (out, adv, x1') ∧
      ((CubicInterpolator.window : ℕ) : ℚ) ≤ x1' ∧
      x1' < (CubicInterpolator.window : ℕ) + 1 := by
  simp only [CubicInterpolator.window, Nat.cast_one] at hx1 ⊢
  rw [Resampler.next_input_size] at hlen
  simp only [CubicInterpolator.window] at hlen
  have hrn : 0 < ratio * (out_len : ℚ) := by
    apply mul_pos hratio
    exact_mod_cast Nat.lt_of_lt_of_le Nat.zero_lt_one hn
  have hx2 : x1 < x1 + ratio * out_len := by linarith
  have hx2_ge : (1 : ℚ) ≤ x1 + ratio * out_len := by linarith
  have hfx2 : (1 : ℤ) ≤ ⌊x1 + ratio * out_len⌋ := by
    rw [Int.le_floor]
    exact_mod_cast hx2_ge
  have hfx2nn : (0 : ℤ) ≤ ⌊x1 + ratio * out_len⌋ := by omega
  have hfloor_cast : ((⌊x1 + ratio * out_len⌋.toNat : ℕ) : ℚ)
      = (⌊x1 + ratio * out_len⌋ : ℚ) := by
    exact_mod_cast congrArg (fun z : ℤ => (z : ℚ)) (Int.toNat_of_nonneg hfx2nn)
  have hx1nn : (0 : ℤ) ≤ ⌊x1⌋ :=
    Int.le_floor.mpr (by exact_mod_cast le_trans zero_le_one hx1)
  unfold Resampler.resample
  simp only [CubicInterpolator.window, Nat.cast_one]
  by_cases hfast : x1 - ⌊x1⌋ = 0 ∧ ratio = 1
  · rw [if_pos hfast]
    obtain ⟨hfr, hr1⟩ := hfast
    have hfloor_x2 : ⌊x1 + ratio * out_len⌋ = ⌊x1⌋ + out_len := by
      rw [hr1, one_mul, Int.floor_add_nat]
    have hlen2 : samples_in.length = ⌊x1⌋.toNat + out_len + 3 := by
      rw [hlen, hfloor_x2]
      omega
    refine ⟨List.take out_len (List.drop (⌊x1⌋.toNat) samples_in),
      out_len + ⌊x1⌋.toNat - 1, 1, ?_, by norm_num, by norm_num⟩
    rw [if_pos (by omega), if_pos (by omega)]
  · rw [if_neg hfast]
    have hxmax_val : samples_in.length - 1 - 1 = ⌊x1 + ratio * out_len⌋.toNat + 1 := by
      rw [hlen]
      omega
    have hxmax_cast : ((samples_in.length - 1 - 1 : ℕ) : ℚ)
        = (⌊x1 + ratio * out_len⌋ : ℚ) + 1 := by
      rw [hxmax_val]
      push_cast
      linarith [hfloor_cast]
    have hx2_lt : x1 + ratio * out_len < (⌊x1 + ratio * out_len⌋ : ℚ) + 1 :=
      Int.lt_floor_add_one _
    have hx2_le_max : x1 + ratio * out_len ≤ ((samples_in.length - 1 - 1 : ℕ) : ℚ) := by
      rw [hxmax_cast]
      linarith
    have hx1_le_max : x1 ≤ ((samples_in.length - 1 - 1 : ℕ) : ℚ) := by
      linarith
    rw [if_neg (by omega), if_neg (by omega),
      if_neg (not_not_intro ⟨hx1, hx1_le_max⟩),
      if_neg (not_not_intro ⟨by linarith, hx2_le_max⟩)]
    obtain ⟨out, hmapM⟩ := mapM_option_exists
      (fun i : ℕ =>
        if ⌊x1 + ratio * (i : ℚ)⌋.toNat < 1 then none
        else
          if samples_in.length < ⌊x1 + ratio * (i : ℚ)⌋.toNat - 1 then none
          else CubicInterpolator.interpolate (x1 + ratio * (i : ℚ) - ⌊x1 + ratio * (i : ℚ)⌋)
            (samples_in.drop (⌊x1 + ratio * (i : ℚ)⌋.toNat - 1)))
      (List.range out_len) (fun i hi => by
      have hi' : i < out_len := List.mem_range.mp hi
      have hri : (0 : ℚ) ≤ ratio * i := mul_nonneg (le_of_lt hratio) (Nat.cast_nonneg i)
      have hxi_ge : (1 : ℚ) ≤ x1 + ratio * i := by linarith
      have hfi_ge : (1 : ℤ) ≤ ⌊x1 + ratio * i⌋ :=
        Int.le_floor.mpr (by exact_mod_cast hxi_ge)
      have hxi_le : x1 + ratio * i ≤ x1 + ratio * out_len := by
        have hile : (i : ℚ) ≤ (out_len : ℚ) := by exact_mod_cast le_of_lt hi'
        nlinarith
      have hfi_le : ⌊x1 + ratio * i⌋ ≤ ⌊x1 + ratio * out_len⌋ :=
        Int.floor_le_floor hxi_le
      dsimp only
      rw [if_neg (by omega), if_neg (by omega), CubicInterpolator.interpolate,
        if_pos (by rw [List.length_drop]; omega)]
      exact ⟨_, rfl⟩)
    rw [hmapM]
    have hfr2 : (0 : ℚ) ≤ x1 + ratio * out_len - ⌊x1 + ratio * out_len⌋ :=
      sub_nonneg.mpr (Int.floor_le _)
    refine ⟨out, (⌊x1 + ratio * out_len⌋ - 1).toNat,
      x1 + ratio * out_len - ((⌊x1 + ratio * out_len⌋ - 1 : ℤ) : ℚ), rfl, ?_, ?_⟩
    · push_cast
      linarith
    · push_cast
      linarith

unseal Rat.add Rat.mul Rat.sub Rat.inv in
/-- C7 witness: from `x1 = 1` with `ratio = 1/2` and two output samples,
the exact input size is 5 and the call succeeds with the new fractional
position back in `[1, 2)`. -/
theorem resample_sizing_exact_witness :
    Resampler.next_input_size 1 2 (1/2) = 5 ∧
    ∃ out adv x1',
      Resampler.resample 1 (List.replicate 5 0) 2 (1/2) = some (out, adv, x1') ∧
      ((CubicInterpolator.window : ℕ) : ℚ) ≤ x1' ∧
      x1' < (CubicInterpolator.window : ℕ) + 1 :=
  ⟨by decide,
   resample_sizing_exact 1 (1/2) (List.replicate 5 0) 2 (by decide) (by decide)
     (by decide) (by decide)⟩

/-! ## Lemmas: MIDI routing latency in the engine -/

theorem midi_step_src_first (f : ℕ → List TimedMidiEvent) (n : ℕ) :
    Engine.process (midiEngineSrcFirst f n) 1 = some (midiEngineSrcFirst f (n + 1)) := by
  cases n with
  | zero =>
    simp only [Engine.process, midiEngineSrcFirst]
    norm_num
    simp [Engine.stepDevice, assocGet, assocSet, borrow_buffers, listResize, listSetRange,
      midiSourceDevice, midiSinkDevice, List.take_replicate, List.range_succ,
      Engine.rustClampNat, assert_index_valid, List.set]
  | succ m =>
    simp only [Engine.process, midiEngineSrcFirst]
    norm_num
    simp [Engine.stepDevice, assocGet, assocSet, borrow_buffers, listResize, listSetRange,
      midiSourceDevice, midiSinkDevice, List.take_replicate, List.range_succ,
      Engine.rustClampNat, assert_index_valid, List.set]

theorem midi_step_sink_first (f : ℕ → List TimedMidiEvent) (n : ℕ) :
    Engine.process (midiEngineSinkFirst f n) 1 = some (midiEngineSinkFirst f (n + 1)) := by
  cases n with
  | zero =>
    simp only [Engine.process, midiEngineSinkFirst]
    norm_num
    simp [Engine.stepDevice, assocGet, assocSet, borrow_buffers, listResize, listSetRange,
      midiSourceDevice, midiSinkDevice, List.take_replicate, List.range_succ,
      Engine.rustClampNat, assert_index_valid, List.set]
  | succ m =>
    simp only [Engine.process, midiEngineSinkFirst]
    norm_num
    simp [Engine.stepDevice, assocGet, assocSet, borrow_buffers, listResize, listSetRange,
      midiSourceDevice, midiSinkDevice, List.take_replicate, List.range_succ,
      Engine.rustClampNat, assert_index_valid, List.set]

theorem processN_midi_src_first (f : ℕ → List TimedMidiEvent) :
    ∀ n, Engine.processN (mkMidiEngine [0, 1] f) 1 n = some (midiEngineSrcFirst f n)
  | 0 => rfl
  | n + 1 => by
    rw [Engine.processN, processN_midi_src_first f n]
    simpa using midi_step_src_first f n

theorem processN_midi_sink_first (f : ℕ → List TimedMidiEvent) :
    ∀ n, Engine.processN (mkMidiEngine [1, 0] f) 1 n = some (midiEngineSinkFirst f n)
  | 0 => rfl
  | n + 1 => by
    rw [Engine.processN, processN_midi_sink_first f n]
    simpa using midi_step_sink_first f n

/-- C8, amended.  The MIDI events the sink receives are those of the
source's most recently executed turn, not unconditionally those of the
previous block: when the source is scheduled *before* the sink, after `n`
blocks the sink's log holds the events the source emitted in blocks
`0..n-1` — each block's events arrive in the *same* call; only when the
sink is scheduled before the source does the routing have one block of
latency (log `0..n-2`). -/
theorem midi_routing_latency (f : ℕ → List TimedMidiEvent) (n : ℕ) :
    ((Engine.processN (mkMidiEngine [0, 1] f) 1 n).map
        (fun e => (assocGet e.devices 1).map (fun d => d.st.2)))
      = some (some ((List.range n).flatMap f)) ∧
    ((Engine.processN (mkMidiEngine [1, 0] f) 1 n).map
        (fun e => (assocGet e.devices 1).map (fun d => d.st.2)))
      = some (some ((List.range (n - 1)).flatMap f)) := by
  rw [processN_midi_src_first f n, processN_midi_sink_first f n]
  constructor <;> simp [midiEngineSrcFirst, midiEngineSinkFirst, assocGet,
    midiSinkDevice]

/-- C8 counterexample: with the source scheduled before the sink, one
single `process` call already delivers the source's same-call event to the
sink — the claim predicts the sink would see only the previous call's
(empty) event list. -/
theorem midi_routing_counterexample :
    ((Engine.processN (mkMidiEngine [0, 1]
        (fun k => [{ time := k, event := 7 }])) 1 1).map
      (fun e => (assocGet e.devices 1).map (fun d => d.st.2)))
      = some (some [{ time := 0, event := 7 }]) ∧
    ([{ time := 0, event := 7 }] : List TimedMidiEvent) ≠ [] := by
  constructor
  · decide
  · decide

/-! ## Lemmas: topological safety of the chain scenario -/

theorem listSetRange_replicate {α : Type _} (a : α) {m i k : ℕ} (h : i + k ≤ m) :
    listSetRange (List.replicate m a) i (List.replicate k a) = List.replicate m a := by
  apply List.ext_getElem?
  intro t
  rw [getElem?_listSetRange (by simp; omega)]
  simp only [List.length_replicate]
  split_ifs with ht
  · rw [List.getElem?_replicate, List.getElem?_replicate, if_pos (by omega),
      if_pos (by omega)]
  · rfl

/-- C9.  The three-node chain A→B→C wired through `test_connect` (A emits
the constant 1, B doubles its input, C copies its input; execution order
A, B, C; slots 0/1 assigned to A and 2/3 to B, C's output defaulting to
slot 0): after a single `process(len)` call, C's output block — slot 0 of
the master buffer — is entirely 2.0: every node read the values its
upstream neighbour produced in the same call. -/
theorem chain_topological_safety (len : ℕ) (hlen : 1 ≤ len) :
    ∃ e, Engine.process chainEngine len = some e ∧
      e.audio_buffers.take len = List.replicate len 2 := by
  have hdiv : 16 * len / len = 16 := by
    rw [Nat.mul_comm, Nat.mul_div_cancel_left _ (by omega)]
  have hchain : chainEngine =
    { sample_rate := 1
      devices := [(0, constOneDevice), (1, doubleDevice), (2, copyDevice)]
      audio_inputs := [(1, [(some 0, 0), (some 0, 1)]), (2, [(some 1, 0), (some 1, 1)])]
      audio_buffers := []
      audio_map := [((0,0),0), ((0,1),1), ((1,0),2), ((1,1),3)]
      midi_inputs := []
      midi_buffers := []
      midi_map := []
      device_order := [0,1,2] } := rfl
  have hres : listResize ([] : List ℚ) (16 * len) 0 = List.replicate (16 * len) 0 := by
    rw [listResize, if_neg (by simp; omega)]
    simp
  have hfill : listSetRange (List.replicate (16 * len) (0:ℚ)) 0 (List.replicate len 0)
      = List.replicate (16 * len) 0 := listSetRange_replicate 0 (by omega)
  rw [hchain]
  simp only [Engine.process]
  norm_num
  rw [hres, hfill]
  have hlen1 : (listSetRange (List.replicate (16 * len) (0:ℚ)) 0
      (List.replicate len 1)).length = 16 * len := by
    rw [length_listSetRange (by simp; omega)]
    simp
  have hlen2 : (listSetRange (listSetRange (List.replicate (16 * len) (0:ℚ)) 0
      (List.replicate len 1)) (2 * len) (List.replicate len 2)).length = 16 * len := by
    rw [length_listSetRange (by rw [hlen1]; simp; omega), hlen1]
  have hB1 : (listSetRange (List.replicate (16 * len) (0:ℚ)) 0
      (List.replicate len 1)).take len = List.replicate len 1 := by
    have h := @take_listSetRange_self ℚ (List.replicate (16 * len) (0:ℚ))
      (List.replicate len (1:ℚ)) (by simp; omega)
    simpa using h
  have hB2 : ((listSetRange (listSetRange (List.replicate (16 * len) (0:ℚ)) 0
      (List.replicate len 1)) (2 * len) (List.replicate len 2)).drop (2 * len)).take len
      = List.replicate len 2 := by
    have h := @drop_take_listSetRange_self ℚ
      (listSetRange (List.replicate (16 * len) (0:ℚ)) 0 (List.replicate len 1))
      (List.replicate len (2:ℚ)) (2 * len) (by rw [hlen1]; simp; omega)
    simpa using h
  have hB3 : (listSetRange (listSetRange (listSetRange (List.replicate (16 * len) (0:ℚ)) 0
      (List.replicate len 1)) (2 * len) (List.replicate len 2)) 0
      (List.replicate len 2)).take len = List.replicate len 2 := by
    have h := @take_listSetRange_self ℚ
      (listSetRange (listSetRange (List.replicate (16 * len) (0:ℚ)) 0
        (List.replicate len 1)) (2 * len) (List.replicate len 2))
      (List.replicate len (2:ℚ)) (by rw [hlen2]; simp; omega)
    simpa using h
  have htb1 : Nat.testBit 1 2 = false := by decide
  have htb2 : Nat.testBit 4 0 = false := by decide
  simp [Engine.stepDevice, assocGet, assocSet, Engine.rustClampNat, borrow_buffers,
    assert_index_valid, hdiv, Prod.mk.injEq, List.set, constOneDevice, doubleDevice,
    copyDevice, hlen1, hlen2, hB1, hB2, hB3, List.map_replicate, List.range_succ,
    Nat.zero_testBit, List.foldlM_cons, List.foldlM_nil, htb1, htb2]

/-- C9 witness: the chain scenario at block length 4. -/
theorem chain_topological_safety_witness :
    ∃ e, Engine.process chainEngine 4 = some e ∧
      e.audio_buffers.take 4 = List.replicate 4 2 :=
  chain_topological_safety 4 (by decide)

end AudioEngineModel
